import Mathlib

/-!
# Verification of the AI code-review application

Shallow embedding of the repository's core logic:
* the client-side markdown heuristics (`extractCodeFromMarkdown`,
  `parseSuggestion`, `handleApplyChange`),
* the server request handler (`postReview`, `getReviews`, `getReviewById`)
  over an explicit database state,
* the prompt-template selection of `analyzeCode`,
* the file-ingestion routine (`isValidFile`, `processFile`, `handleFiles`).

JavaScript regular expressions are modelled by executable scanners over
`List Char` that reproduce the backtracking behaviour of the concrete
patterns appearing in the source.
-/

namespace AICodeReview

/-- `\w` of JavaScript regexes: ASCII letters, digits and underscore. -/
def isWordChar (c : Char) : Bool :=
  c.isAlpha || c.isDigit || c = '_'

/-- `\s` of JavaScript regexes, restricted to the ASCII whitespace characters. -/
def isJsSpace (c : Char) : Bool :=
  c = ' ' || c = '\t' || c = '\n' || c = '\r' || c = '\x0b' || c = '\x0c'

/-- `String.prototype.trim`: strip whitespace from both ends. -/
def jsTrim (s : String) : String :=
  String.mk (((s.data.dropWhile isJsSpace).reverse.dropWhile isJsSpace).reverse)

/-- Quote characters of the file-path pattern `['"` ++ "`" ++ `]`. -/
def isQuote (c : Char) : Bool :=
  c = '\'' || c = '"' || c = '`'

/-- Split a character list at the first occurrence of a triple-backtick fence:
returns the part before the fence and the part after it. `none` when the
list contains no fence. -/
def findFence : List Char → Option (List Char × List Char)
  | '`' :: '`' :: '`' :: rest => some ([], rest)
  | c :: rest =>
    (findFence rest).map (fun pr => (c :: pr.1, pr.2))
  | [] => none

/-- One step of the global scan for the pattern
`(three backticks)(\w+)?\s*(lazy capture)(three backticks)` used by
`parseSuggestion` in `review-display.tsx`: the captured groups of all
matches, in order.  `fuel` bounds the recursion; each step consumes at
least one character, so `s.length` fuel is always enough. -/
def scanAllBlocksAux : Nat → List Char → List (List Char)
  | 0, _ => []
  | _ + 1, [] => []
  | fuel + 1, '`' :: '`' :: '`' :: rest =>
    let t := (rest.dropWhile isWordChar).dropWhile isJsSpace
    match findFence t with
    | some (cap, rem) => cap :: scanAllBlocksAux fuel rem
    | none => scanAllBlocksAux fuel ('`' :: '`' :: rest)
  | fuel + 1, _ :: rest => scanAllBlocksAux fuel rest

/-- The raw (untrimmed) captures of `suggestion.matchAll(codeBlockRegex)`
in `parseSuggestion`. -/
def rawCodeBlocks (s : String) : List String :=
  (scanAllBlocksAux s.data.length s.data).map String.mk

/-- Test for the segment between two quote characters accepted by the
file-path pattern: a non-empty prefix, a dot, then a non-empty run of
ASCII letters reaching the closing quote. -/
def pathSegOk (seg : List Char) : Bool :=
  let rev := seg.reverse
  let letters := rev.takeWhile Char.isAlpha
  match rev.drop letters.length with
  | '.' :: before => decide (letters ≠ []) && decide (before ≠ [])
  | _ => false

/-- Split a character list at the first quote character: the segment before
it and the rest after it.  `none` when no quote occurs. -/
def spanToQuote : List Char → Option (List Char × List Char)
  | [] => none
  | c :: rest =>
    if isQuote c then some ([], rest)
    else (spanToQuote rest).map (fun pr => (c :: pr.1, pr.2))

/-- First match of the file-path regex
(quote, non-quote run containing a dot-extension, quote) of
`parseSuggestion`; returns the captured group. -/
def findPathMatch : List Char → Option String
  | [] => none
  | c :: rest =>
    if isQuote c then
      match spanToQuote rest with
      | some (seg, _) =>
        if pathSegOk seg then some (String.mk seg) else findPathMatch rest
      | none => none
    else findPathMatch rest

/-- Global replacement of `/(three backticks)[\s\S]*?(three backticks)/g` by
the empty string, used when `parseSuggestion` computes the description. -/
def stripBlocksAux : Nat → List Char → List Char
  | 0, s => s
  | _ + 1, [] => []
  | fuel + 1, '`' :: '`' :: '`' :: rest =>
    match findFence rest with
    | some (_, rem) => stripBlocksAux fuel rem
    | none => '`' :: stripBlocksAux fuel ('`' :: '`' :: rest)
  | fuel + 1, c :: rest => c :: stripBlocksAux fuel rest

/-- Global replacement of the quoted-file-path pattern by the empty string,
used when `parseSuggestion` computes the description. -/
def stripPathsAux : Nat → List Char → List Char
  | 0, s => s
  | _ + 1, [] => []
  | fuel + 1, c :: rest =>
    if isQuote c then
      match spanToQuote rest with
      | some (seg, afterQuote) =>
        if pathSegOk seg then stripPathsAux fuel afterQuote
        else c :: stripPathsAux fuel rest
      | none => c :: stripPathsAux fuel rest
    else c :: stripPathsAux fuel rest

def stripCodeBlocks (s : String) : String :=
  String.mk (stripBlocksAux s.data.length s.data)

def stripPathTokens (s : String) : String :=
  String.mk (stripPathsAux s.data.length s.data)

/-- The record returned by `parseSuggestion` in `review-display.tsx`. -/
structure ParsedChange where
  filePath : String
  originalCode : String
  suggestedCode : String
  description : String
deriving Repr, DecidableEq

/-- `parseSuggestion` of `review-display.tsx`: first the quoted file path is
required, then the fenced code blocks are collected; two or more blocks give
an original/suggested pair, a single block gives only a suggested snippet,
no block gives `null`. -/
def parseSuggestion (suggestion : String) : Option ParsedChange :=
  match findPathMatch suggestion.data with
  | none => none
  | some filePath =>
    let codeBlocks := (rawCodeBlocks suggestion).map jsTrim
    let description := jsTrim (stripPathTokens (stripCodeBlocks suggestion))
    if codeBlocks.length ≥ 2 then
      some ⟨filePath, codeBlocks[0]!, codeBlocks[1]!, description⟩
    else if codeBlocks.length = 1 then
      some ⟨filePath, "", codeBlocks[0]!, description⟩
    else
      none

/-! ## The single-match extraction of `home.tsx`

`extractCodeFromMarkdown` uses the non-global pattern
`(three backticks)(?:javascript|typescript|js|ts)?\n(lazy capture)(three backticks)`
and `String.prototype.match`, which returns the leftmost match only. -/

/-- Does the list start with a triple-backtick fence? -/
def startsFence : List Char → Bool
  | '`' :: '`' :: '`' :: _ => true
  | _ => false

/-- The alternatives of `(?:javascript|typescript|js|ts)?`, in the order the
regex engine tries them; the empty list is the "absent" case. -/
def jsLangAlternatives : List (List Char) :=
  ["javascript".data, "typescript".data, "js".data, "ts".data, []]

/-- Attempt the part of the pattern after the opening fence: an optional
language tag, a newline, then the lazy capture up to the next fence.
Returns the capture and the remainder after the closing fence. -/
def tryOpenJs (afterOpen : List Char) : Option (List Char × List Char) :=
  jsLangAlternatives.findSome? fun tag =>
    if (tag ++ ['\n']).isPrefixOf afterOpen then
      findFence (afterOpen.drop (tag.length + 1))
    else none

/-- Leftmost match of the `home.tsx` pattern: the captured group. -/
def extractFirstJsAux : Nat → List Char → Option (List Char)
  | 0, _ => none
  | fuel + 1, s =>
    match s with
    | [] => none
    | _ :: rest =>
      if startsFence s then
        match tryOpenJs (s.drop 3) with
        | some (cap, _) => some cap
        | none => extractFirstJsAux fuel rest
      else extractFirstJsAux fuel rest

/-- All matches of the `home.tsx` pattern (as a global scan would find them). -/
def scanJsAllAux : Nat → List Char → List (List Char)
  | 0, _ => []
  | fuel + 1, s =>
    match s with
    | [] => []
    | _ :: rest =>
      if startsFence s then
        match tryOpenJs (s.drop 3) with
        | some (cap, rem) => cap :: scanJsAllAux fuel rem
        | none => scanJsAllAux fuel rest
      else scanJsAllAux fuel rest

/-- `extractCodeFromMarkdown` of `home.tsx`: the trimmed capture of the
leftmost match, or `null` when the pattern does not occur. -/
def extractCodeFromMarkdown (markdown : String) : Option String :=
  (extractFirstJsAux markdown.data.length markdown.data).map
    (fun l => jsTrim (String.mk l))

/-- All blocks the `home.tsx` pattern can see, in order of occurrence. -/
def jsCodeBlocks (markdown : String) : List String :=
  (scanJsAllAux markdown.data.length markdown.data).map String.mk

/-! ## The client editor state and `handleApplyChange` (`home.tsx`) -/

inductive InputMode
  | paste
  | files
  | project
deriving Repr, DecidableEq

/-- A file as carried by the client (`FileContent` in `lib/openai.ts`). -/
structure FileContent where
  path : String
  content : String
deriving Repr, DecidableEq, Inhabited

/-- The component state of `home.tsx` touched by `handleApplyChange`. -/
structure EditorState where
  inputMode : InputMode
  pastedCode : String
  files : List FileContent
deriving Repr, DecidableEq

inductive ToastVariant
  | success
  | destructive
deriving Repr, DecidableEq

structure Toast where
  variant : ToastVariant
  description : String
deriving Repr, DecidableEq

/-- `handleApplyChange` of `home.tsx` (multi-input variant, lines 243-264):
extract a snippet; on success replace the pasted code or the single
selected file's content and toast success, otherwise toast an error. -/
def handleApplyChange (st : EditorState) (suggestion : String) :
    EditorState × Toast :=
  match extractCodeFromMarkdown suggestion with
  | some codeSnippet =>
    let st' :=
      if st.inputMode = .paste then { st with pastedCode := codeSnippet }
      else if st.files.length = 1 then
        { st with files := [{ st.files[0]! with content := codeSnippet }] }
      else st
    (st', ⟨.success, "Applied suggested changes to the code"⟩)
  | none =>
    (st, ⟨.destructive,
      if st.inputMode = .paste then "No code found in the suggestion"
      else "Cannot apply changes to multiple files"⟩)

/-! ## Review modes and prompt templates (`server/openai.ts`, files variant) -/

inductive ReviewMode
  | general
  | performance
  | security
  | cleanCode
  | architecture
deriving Repr, DecidableEq, Fintype

/-- The `REVIEW_PROMPTS` table of the files-based `analyzeCode`. -/
def REVIEW_PROMPTS : ReviewMode → String
  | .general =>
    "You are an expert code reviewer analyzing code. Provide a concise review including:\n1. Key code suggestions\n2. Performance improvements\n3. Security considerations\n4. Dependencies recommendations\n5. Architecture suggestions"
  | .performance =>
    "You are a performance optimization expert. Focus on:\n1. Time complexity and efficiency\n2. Memory usage patterns\n3. Async/await optimizations\n4. Caching opportunities\n5. Bundle optimization"
  | .security =>
    "You are a security expert. Focus on:\n1. Common vulnerabilities\n2. Input validation\n3. Authentication issues\n4. Data exposure risks\n5. Dependencies security"
  | .cleanCode =>
    "You are a clean code expert. Focus on:\n1. Code organization\n2. Naming conventions\n3. Function responsibilities\n4. Code duplication\n5. Coding style"
  | .architecture =>
    "You are a software architect. Focus on:\n1. Application architecture\n2. Code modularity\n3. Data flow\n4. API design\n5. Scalability"

/-- `path.split('.').pop()?.toLowerCase()`: the segment after the last dot
(the whole name when there is no dot), lowercased. -/
def extOf (path : String) : String :=
  String.mk (((path.data.reverse.takeWhile (fun c => c ≠ '.')).reverse).map
    Char.toLower)

def textFileExtensions : List String :=
  ["js", "ts", "jsx", "tsx", "py", "java", "cpp", "c",
   "h", "cs", "php", "rb", "swift", "go", "rs", "html",
   "css", "scss", "json", "yml", "yaml", "md", "txt"]

/-- The text-file filter inside `createFileContext`
(`!ext || [...].includes(ext)`). -/
def isTextFile (path : String) : Bool :=
  let ext := extOf path
  ext = "" || textFileExtensions.contains ext

/-- One entry of the file context, with the 5 KB slice and truncation marker. -/
def fileContextEntry (file : FileContent) : String :=
  let content := file.content.take 5000
  "File: " ++ file.path ++ "\n```\n" ++ content ++
    (if content.length = 5000 then "\n... (truncated)" else "") ++ "\n```\n"

/-- `createFileContext` of the files-based `analyzeCode`. -/
def createFileContext (files : List FileContent) : String :=
  String.intercalate "\n\n"
    ((files.filter (fun f => isTextFile f.path)).map fileContextEntry)

/-- Everything of the system message after the prompt template: the
response-format instructions, the language, the file count and the file
context. -/
def systemMessageRest (files : List FileContent) (language : String) : String :=
  "\nRespond with a JSON object containing arrays of concise, actionable markdown-formatted suggestions:\n\x7b\n  \"suggestions\": string[],\n  \"improvements\": string[],\n  \"security\": string[],\n  \"dependencies\": string[],\n  \"architecture\": string[]\n\x7d\n\nKeep each suggestion under 150 words and focus on the most important issues.\n\nLanguage: " ++
    language ++ "\nFiles: " ++ toString files.length ++ "\n\n" ++
    createFileContext files

/-- The system message sent to the completion endpoint: the mode's prompt
template followed by the fixed remainder. -/
def analyzeSystemMessage (files : List FileContent) (mode : ReviewMode)
    (language : String) : String :=
  REVIEW_PROMPTS mode ++ systemMessageRest files language

/-! ## `analyzeCode` error behaviour -/

/-- The parsed JSON body returned by the analysis. -/
structure CodeReviewResponse where
  suggestions : List String
  improvements : List String
  security : List String
  dependencies : List String
  architecture : List String
deriving Repr, DecidableEq

/-- Outcome of the external completion call, as far as `analyzeCode` can
observe it: the call rejects, the response has no content, the content is
not valid JSON, or a parsed result is obtained. -/
inductive ApiOutcome
  | apiError (msg : String)
  | noContent
  | badJson (msg : String)
  | parsed (result : CodeReviewResponse)
deriving Repr, DecidableEq

/-- The message of the underlying error in each failure case. -/
def underlyingMessage : ApiOutcome → String
  | .apiError msg => msg
  | .noContent => "No response content received from OpenAI"
  | .badJson msg => msg
  | .parsed _ => ""

/-- `analyzeCode`: any failure inside the `try` block is caught and rethrown
as `"Failed to analyze code: " + error.message`. -/
def analyzeCode (api : ApiOutcome) : Except String CodeReviewResponse :=
  match api with
  | .apiError msg => .error ("Failed to analyze code: " ++ msg)
  | .noContent =>
    .error ("Failed to analyze code: " ++ "No response content received from OpenAI")
  | .badJson msg => .error ("Failed to analyze code: " ++ msg)
  | .parsed result => .ok result

/-! ## The database (`@db/schema`, files variant) and the routes -/

structure ReviewRow where
  id : Nat
  name : String
  description : String
  language : String
  mode : ReviewMode
  createdAt : Nat
deriving Repr, DecidableEq

structure ReviewFileRow where
  id : Nat
  reviewId : Nat
  path : String
  content : String
  createdAt : Nat
deriving Repr, DecidableEq

structure ReviewResultRow where
  id : Nat
  reviewId : Nat
  suggestions : List String
  improvements : List String
  security : List String
  dependencies : List String
  architecture : List String
  createdAt : Nat
deriving Repr, DecidableEq

/-- Database state: the three tables, the serial counters and the clock
used for `defaultNow()`. -/
structure DbState where
  reviews : List ReviewRow
  reviewFiles : List ReviewFileRow
  reviewResults : List ReviewResultRow
  nextReviewId : Nat
  nextFileId : Nat
  nextResultId : Nat
  now : Nat
deriving Repr, DecidableEq

/-- The `files` field of a request body as JavaScript sees it. -/
inductive FilesField
  | missing
  | notArray
  | array (files : List FileContent)
deriving Repr, DecidableEq

/-- A `POST /api/review` body; destructuring defaults are applied with
`Option.getD` where the handler declares them. -/
structure ReviewRequestBody where
  files : FilesField
  name : Option String
  description : Option String
  mode : Option ReviewMode
  language : Option String
  save : Option Bool
deriving Repr, DecidableEq

structure HandlerResponse where
  status : Nat
  message : Option String
  analysis : Option CodeReviewResponse
  analysisCalled : Bool
deriving Repr, DecidableEq

/-- `!files || !Array.isArray(files) || files.length === 0`. -/
def filesFieldInvalid : FilesField → Bool
  | .missing => true
  | .notArray => true
  | .array files => files.length = 0

/-- `!name`: absent, or the (falsy) empty string. -/
def nameFalsy : Option String → Bool
  | none => true
  | some s => s = ""

def bodyFiles : FilesField → List FileContent
  | .array files => files
  | _ => []

/-- The three inserts of the save branch of `POST /api/review`
(review row with `.returning()`, file rows, result row). -/
def saveReview (db : DbState) (body : ReviewRequestBody)
    (analysis : CodeReviewResponse) : DbState :=
  let files := bodyFiles body.files
  let review : ReviewRow :=
    { id := db.nextReviewId
      name := body.name.getD ""
      description := body.description.getD ""
      language := body.language.getD "javascript"
      mode := body.mode.getD .general
      createdAt := db.now }
  let fileRows := files.enum.map fun p =>
    { id := db.nextFileId + p.1
      reviewId := review.id
      path := p.2.path
      content := p.2.content
      createdAt := db.now : ReviewFileRow }
  let resultRow : ReviewResultRow :=
    { id := db.nextResultId
      reviewId := review.id
      suggestions := analysis.suggestions
      improvements := analysis.improvements
      security := analysis.security
      dependencies := analysis.dependencies
      architecture := analysis.architecture
      createdAt := db.now }
  { reviews := db.reviews ++ [review]
    reviewFiles := db.reviewFiles ++ fileRows
    reviewResults := db.reviewResults ++ [resultRow]
    nextReviewId := db.nextReviewId + 1
    nextFileId := db.nextFileId + files.length
    nextResultId := db.nextResultId + 1
    now := db.now }

/-- The `POST /api/review` handler of the files variant: validation,
analysis, optional persistence, and the catch-all 500. -/
def postReview (db : DbState) (body : ReviewRequestBody) (api : ApiOutcome) :
    HandlerResponse × DbState :=
  if filesFieldInvalid body.files then
    ({ status := 400
       message := some "At least one file is required for review"
       analysis := none
       analysisCalled := false }, db)
  else if nameFalsy body.name then
    ({ status := 400
       message := some "Review name is required"
       analysis := none
       analysisCalled := false }, db)
  else
    match analyzeCode api with
    | .error msg =>
      ({ status := 500
         message := some (if msg = "" then "Failed to analyze code" else msg)
         analysis := none
         analysisCalled := true }, db)
    | .ok analysis =>
      let db' := if body.save.getD false then saveReview db body analysis else db
      ({ status := 200
         message := none
         analysis := some analysis
         analysisCalled := true }, db')

/-- A review row together with its `with: \x7b files: true, results: true \x7d`
relations. -/
structure ReviewWithRelations where
  review : ReviewRow
  files : List ReviewFileRow
  results : List ReviewResultRow
deriving Repr, DecidableEq

def attachRelations (db : DbState) (r : ReviewRow) : ReviewWithRelations :=
  ⟨r, db.reviewFiles.filter (fun f => f.reviewId = r.id),
      db.reviewResults.filter (fun res => res.reviewId = r.id)⟩

/-- Insertion step of the `orderBy: desc(reviews.createdAt)` sort. -/
def insertByCreatedDesc (r : ReviewRow) : List ReviewRow → List ReviewRow
  | [] => [r]
  | x :: xs =>
    if x.createdAt ≤ r.createdAt then r :: x :: xs
    else x :: insertByCreatedDesc r xs

/-- Newest-first ordering of the review table. -/
def sortByCreatedDesc : List ReviewRow → List ReviewRow
  | [] => []
  | x :: xs => insertByCreatedDesc x (sortByCreatedDesc xs)

/-- `GET /api/reviews`: all reviews, newest first, with relations. -/
def getReviews (db : DbState) : List ReviewWithRelations :=
  (sortByCreatedDesc db.reviews).map (attachRelations db)

/-- `GET /api/reviews/:id`: `findFirst` on the id, with relations;
`none` corresponds to the 404 branch. -/
def getReviewById (db : DbState) (id : Nat) : Option ReviewWithRelations :=
  (db.reviews.find? (fun r => r.id = id)).map (attachRelations db)

/-! ## The single-code `POST /api/review` of `server/routes.ts` -/

/-- The `code` field of the single-code body as JavaScript sees it. -/
inductive CodeField
  | missing
  | notString
  | str (code : String)
deriving Repr, DecidableEq

/-- `!code || typeof code !== "string"`. -/
def codeFieldInvalid : CodeField → Bool
  | .missing => true
  | .notString => true
  | .str s => s = ""

/-- The single-code `POST /api/review` handler (no persistence). -/
def postReviewSingle (code : CodeField) (api : ApiOutcome) : HandlerResponse :=
  if codeFieldInvalid code then
    { status := 400
      message := some "Code is required and must be a string"
      analysis := none
      analysisCalled := false }
  else
    match analyzeCode api with
    | .error msg =>
      { status := 500
        message := some (if msg = "" then "Failed to analyze code" else msg)
        analysis := none
        analysisCalled := true }
    | .ok analysis =>
      { status := 200
        message := none
        analysis := some analysis
        analysisCalled := true }

/-! ## File ingestion (`file-upload.tsx`) -/

/-- Maximum file size in bytes (5MB per file). -/
def MAX_FILE_SIZE : Nat := 5 * 1024 * 1024

/-- Maximum total upload size in bytes (50MB). -/
def MAX_TOTAL_SIZE : Nat := 50 * 1024 * 1024

/-- File extensions to accept. -/
def ACCEPTED_EXTENSIONS : List String :=
  ["js", "ts", "jsx", "tsx", "py", "java", "cpp", "c",
   "h", "cs", "php", "rb", "swift", "go", "rs", "html",
   "css", "scss", "json", "yml", "yaml", "md", "txt"]

/-- Directories to exclude. -/
def EXCLUDED_DIRS : List String := ["node_modules", "dist", "build", ".git"]

/-- Contiguous-substring test (`String.prototype.includes`). -/
def containsSeq (pat : List Char) : List Char → Bool
  | [] => pat.isEmpty
  | s@(_ :: rest) => pat.isPrefixOf s || containsSeq pat rest

def includesSubstr (s pat : String) : Bool :=
  containsSeq pat.data s.data

/-- `isValidFile` of `file-upload.tsx`: reject paths through an excluded
directory, then require an accepted extension. -/
def isValidFile (filePath : String) : Bool :=
  if EXCLUDED_DIRS.any (fun dir => includesSubstr filePath ("/" ++ dir ++ "/")) then
    false
  else
    let ext := extOf filePath
    if ext = "" then false else ACCEPTED_EXTENSIONS.contains ext

/-- A dropped file after its traversal path has been prepended
(the `filePath` of `processFile`). -/
structure UploadFile where
  path : String
  size : Nat
  content : String
deriving Repr, DecidableEq

/-- The accumulator of one `handleFiles` run: the `newFiles` object as an
insertion-ordered association list, the running total size, and the
`hasShownSizeError` flag. -/
structure IngestState where
  newFiles : List (String × String)
  newTotalSize : Nat
  hasShownSizeError : Bool
deriving Repr, DecidableEq

/-- JavaScript object assignment `newFiles[filePath] = ...`: replace the
value in place when the key exists, otherwise append. -/
def upsert : List (String × String) → String → String → List (String × String)
  | [], p, c => [(p, c)]
  | (q, d) :: rest, p, c =>
    if q = p then (q, c) :: rest else (q, d) :: upsert rest p c

/-- `processFile`: skip invalid paths, reject over-5MB files and files that
would push the total over 50MB (both only raise the error flag), otherwise
record the file and add its size. -/
def processFile (st : IngestState) (f : UploadFile) : IngestState :=
  if !isValidFile f.path then st
  else if f.size > MAX_FILE_SIZE then { st with hasShownSizeError := true }
  else if st.newTotalSize + f.size > MAX_TOTAL_SIZE then
    { st with hasShownSizeError := true }
  else
    { st with
      newFiles := upsert st.newFiles f.path f.content
      newTotalSize := st.newTotalSize + f.size }

def initIngest : IngestState := ⟨[], 0, false⟩

/-- The flat-file branch of `handleFiles` (a plain `FileList`); the
traversal branch is `handleFilesEntries` below. -/
def handleFiles (files : List UploadFile) : IngestState :=
  files.foldl processFile initIngest

/-- A dropped entry: a file or a directory (`FileSystemEntry`). -/
inductive Entry
  | file (name : String) (size : Nat) (content : String)
  | dir (name : String) (children : List Entry)
deriving Repr

/-- `path ? path + "/" + name : name`. -/
def joinPath (path name : String) : String :=
  if path = "" then name else path ++ "/" ++ name

mutual

/-- `processEntry`: process a file with the accumulated path, recurse into
directories when allowed, skipping directories with an excluded name. -/
def processEntry (allowDirectories : Bool) (path : String) (st : IngestState) :
    Entry → IngestState
  | .file name size content => processFile st ⟨joinPath path name, size, content⟩
  | .dir name children =>
    if allowDirectories then
      if EXCLUDED_DIRS.contains name then st
      else processEntries allowDirectories (joinPath path name) st children
    else st

/-- Sequential processing of a directory's entries. -/
def processEntries (allowDirectories : Bool) (path : String) (st : IngestState) :
    List Entry → IngestState
  | [] => st
  | e :: es =>
    processEntries allowDirectories path
      (processEntry allowDirectories path st e) es

end

/-- The drag-and-drop branch of `handleFiles`: each top-level entry is
processed with an empty path prefix. -/
def handleFilesEntries (allowDirectories : Bool) (entries : List Entry) :
    IngestState :=
  processEntries allowDirectories "" initIngest entries

/-! ## Theorems -/

/-- C1: for a suggestion with a quoted file path and at least two fenced
code blocks, `parseSuggestion` returns the trimmed first block as
`originalCode` and the trimmed second block as `suggestedCode`; with
exactly one block it returns an empty `originalCode` and that block
trimmed as `suggestedCode`; with no quoted file path or no code block it
returns `null`. -/
theorem parseSuggestion_cases (s : String) :
    parseSuggestion s =
      match findPathMatch s.data, rawCodeBlocks s with
      | none, _ => none
      | some _, [] => none
      | some p, [b] =>
        some ⟨p, "", jsTrim b, jsTrim (stripPathTokens (stripCodeBlocks s))⟩
      | some p, b1 :: b2 :: _ =>
        some ⟨p, jsTrim b1, jsTrim b2, jsTrim (stripPathTokens (stripCodeBlocks s))⟩ := by
  unfold parseSuggestion
  cases hf : findPathMatch s.data with
  | none => rfl
  | some p =>
    cases hb : rawCodeBlocks s with
    | nil => simp
    | cons b1 t =>
      cases t with
      | nil => simp
      | cons b2 t2 => simp

/-- The single-match extraction agrees with the head of the global scan. -/
theorem extractFirstJsAux_eq_head (n : Nat) :
    ∀ s, extractFirstJsAux n s = (scanJsAllAux n s).head? := by
  induction n with
  | zero => intro s; rfl
  | succ n ih =>
    intro s
    cases s with
    | nil => rfl
    | cons c rest =>
      show (if startsFence (c :: rest) then _ else _) = List.head? (if startsFence (c :: rest) then _ else _)
      by_cases h : startsFence (c :: rest)
      · simp only [h, if_true]
        cases tryOpenJs ((c :: rest).drop 3) with
        | none => exact ih rest
        | some pr => rfl
      · simp only [h, if_false]
        exact ih rest

/-- C2 (amended): `extractCodeFromMarkdown` returns the trimmed capture of
the first block whose opening fence carries an optional
javascript/typescript/js/ts tag followed by a newline, and returns `null`
exactly when no such block occurs. -/
theorem extractCodeFromMarkdown_first (markdown : String) :
    extractCodeFromMarkdown markdown =
      (jsCodeBlocks markdown).head?.map jsTrim ∧
    (extractCodeFromMarkdown markdown = none ↔ jsCodeBlocks markdown = []) := by
  have h1 : extractCodeFromMarkdown markdown =
      (jsCodeBlocks markdown).head?.map jsTrim := by
    unfold extractCodeFromMarkdown jsCodeBlocks
    rw [extractFirstJsAux_eq_head]
    cases scanJsAllAux markdown.data.length markdown.data with
    | nil => rfl
    | cons a l => rfl
  refine ⟨h1, ?_⟩
  rw [h1]
  cases jsCodeBlocks markdown with
  | nil => simp
  | cons a l => simp

/-- C2 counterexample: on a string with two fenced code blocks the function
returns the first block's trimmed content, not the last one's; and on a
string whose only fenced block carries a non-JavaScript language tag it
returns `null` although a fenced block is present. -/
theorem extractCodeFromMarkdown_not_last :
    (1 < (rawCodeBlocks "```\nAAA\n``` ```\nBBB\n```").length ∧
      extractCodeFromMarkdown "```\nAAA\n``` ```\nBBB\n```" ≠
        some (jsTrim ((rawCodeBlocks "```\nAAA\n``` ```\nBBB\n```").getLastD ""))) ∧
    (extractCodeFromMarkdown "```python\nX\n```" = none ∧
      rawCodeBlocks "```python\nX\n```" ≠ []) := by
  decide

/-- C10 (amended): `handleApplyChange` leaves the state unchanged and
toasts an error when no snippet can be extracted; with an extracted
snippet it replaces the pasted code (paste mode) or the single selected
file's content (exactly one file), and with more than one file (or none)
outside paste mode it leaves the state unchanged while still toasting
success. -/
theorem handleApplyChange_cases (st : EditorState) (s : String) :
    (extractCodeFromMarkdown s = none →
      handleApplyChange st s =
        (st, ⟨.destructive,
          if st.inputMode = .paste then "No code found in the suggestion"
          else "Cannot apply changes to multiple files"⟩)) ∧
    (∀ snip, extractCodeFromMarkdown s = some snip →
      (st.inputMode = .paste →
        handleApplyChange st s =
          ({ st with pastedCode := snip },
           ⟨.success, "Applied suggested changes to the code"⟩)) ∧
      (st.inputMode ≠ .paste → st.files.length = 1 →
        handleApplyChange st s =
          ({ st with files := [{ st.files[0]! with content := snip }] },
           ⟨.success, "Applied suggested changes to the code"⟩)) ∧
      (st.inputMode ≠ .paste → st.files.length ≠ 1 →
        handleApplyChange st s =
          (st, ⟨.success, "Applied suggested changes to the code"⟩))) := by
  constructor
  · intro h
    unfold handleApplyChange
    rw [h]
  · intro snip h
    refine ⟨?_, ?_, ?_⟩
    · intro hp
      unfold handleApplyChange
      rw [h]
      simp [hp]
    · intro hp h1
      unfold handleApplyChange
      rw [h]
      simp [hp, h1]
    · intro hp h1
      unfold handleApplyChange
      rw [h]
      simp [hp, h1]

/-- C10 witness: a concrete paste-mode application replaces the code. -/
theorem handleApplyChange_cases_witness :
    handleApplyChange ⟨.paste, "old", []⟩ "```js\nz\n```" =
      (⟨.paste, "z", []⟩,
       ⟨.success, "Applied suggested changes to the code"⟩) := by
  have h :=
    ((handleApplyChange_cases ⟨.paste, "old", []⟩ "```js\nz\n```").2 "z"
      (by decide)).1 rfl
  exact h

/-- C10 counterexample: with two selected files and a suggestion carrying a
fenced code block, the handler leaves the state unchanged but reports a
success toast, not an error. -/
theorem handleApplyChange_multifile_success :
    1 < (EditorState.mk .files "" [⟨"a.ts", "x"⟩, ⟨"b.ts", "y"⟩]).files.length ∧
    rawCodeBlocks "```js\nnew\n```" ≠ [] ∧
    (handleApplyChange ⟨.files, "", [⟨"a.ts", "x"⟩, ⟨"b.ts", "y"⟩]⟩
        "```js\nnew\n```").1 =
      ⟨.files, "", [⟨"a.ts", "x"⟩, ⟨"b.ts", "y"⟩]⟩ ∧
    (handleApplyChange ⟨.files, "", [⟨"a.ts", "x"⟩, ⟨"b.ts", "y"⟩]⟩
        "```js\nnew\n```").2.variant = ToastVariant.success ∧
    ToastVariant.success ≠ ToastVariant.destructive := by
  decide

/-- A list that is a prefix of `b ++ r` agrees with `b` on the first `k`
elements, provided both are at least `k` long. -/
theorem prefix_take_eq {α : Type _} {a b r : List α} (k : Nat)
    (hka : k ≤ a.length) (hkb : k ≤ b.length) (h : a <+: b ++ r) :
    a.take k = b.take k := by
  obtain ⟨t, ht⟩ := h
  have h2 : (b ++ r).take k = (a ++ t).take k := by rw [ht]
  rwa [List.take_append_of_le_length hkb, List.take_append_of_le_length hka,
    eq_comm] at h2

set_option maxRecDepth 8192 in
/-- Every prompt template is at least 40 characters long. -/
theorem prompts_long : ∀ m : ReviewMode, 40 ≤ (REVIEW_PROMPTS m).data.length := by
  decide

set_option maxRecDepth 8192 in
/-- The five prompt templates pairwise diverge within their first
40 characters. -/
theorem prompts_diverge :
    ∀ m m' : ReviewMode,
      (REVIEW_PROMPTS m).data.take 40 = (REVIEW_PROMPTS m').data.take 40 →
        m = m' := by
  decide

/-- The system message is the selected prompt template followed by a fixed
remainder. -/
theorem analyzeSystemMessage_split (files : List FileContent)
    (language : String) (m0 : ReviewMode) :
    ∃ rest, (analyzeSystemMessage files m0 language).data =
      (REVIEW_PROMPTS m0).data ++ rest := by
  exact ⟨(systemMessageRest files language).data,
    by rw [analyzeSystemMessage, String.data_append]⟩

/-- C5: the system message sent to the completion endpoint begins with the
prompt template of exactly the requested mode, defaulting to the general
template when the request carries no mode. -/
theorem systemMessage_prompt_prefix (files : List FileContent)
    (language : String) (bodyMode : Option ReviewMode) (m : ReviewMode) :
    (REVIEW_PROMPTS m).data <+:
        (analyzeSystemMessage files (bodyMode.getD .general) language).data ↔
      m = bodyMode.getD .general := by
  obtain ⟨rest, hm⟩ := analyzeSystemMessage_split files language (bodyMode.getD .general)
  rw [hm]
  constructor
  · intro h
    exact prompts_diverge m (bodyMode.getD .general)
      (prefix_take_eq 40 (prompts_long m) (prompts_long _) h)
  · intro h
    rw [h]
    exact List.prefix_append _ _

/-- C3: a missing/non-array/empty `files` field, or a missing `name`, is
rejected with 400 before the analysis runs and without touching the
database (likewise a missing or non-string `code` in the single-code
variant); a non-empty files array with a non-empty name passes validation
and the analysis is invoked. -/
theorem reviewRequestValidation (db : DbState) (body : ReviewRequestBody)
    (api : ApiOutcome) (code : CodeField) :
    (filesFieldInvalid body.files = true →
      (postReview db body api).1.status = 400 ∧
      (postReview db body api).1.analysisCalled = false ∧
      (postReview db body api).2 = db) ∧
    (body.name = none →
      (postReview db body api).1.status = 400 ∧
      (postReview db body api).1.analysisCalled = false ∧
      (postReview db body api).2 = db) ∧
    (codeFieldInvalid code = true →
      (postReviewSingle code api).status = 400 ∧
      (postReviewSingle code api).analysisCalled = false) ∧
    (∀ fs n, body.files = .array fs → fs ≠ [] → body.name = some n → n ≠ "" →
      (postReview db body api).1.analysisCalled = true) := by
  refine ⟨?_, ?_, ?_, ?_⟩
  · intro h
    simp [postReview, h]
  · intro h
    by_cases hf : filesFieldInvalid body.files = true
    · simp [postReview, hf]
    · simp only [Bool.not_eq_true] at hf
      simp [postReview, hf, h, nameFalsy]
  · intro h
    simp [postReviewSingle, h]
  · intro fs n hfs hne hname hn
    have hf : filesFieldInvalid body.files = false := by
      rw [hfs]
      simpa [filesFieldInvalid, List.length_eq_zero]
    have hnm : nameFalsy body.name = false := by
      rw [hname]
      simpa [nameFalsy]
    cases hres : analyzeCode api with
    | error msg => simp [postReview, hf, hnm, hres]
    | ok r => simp [postReview, hf, hnm, hres]

/-- C3 witness: concrete bodies exercising the 400 branch and the
analysis-invoked branch. -/
theorem reviewRequestValidation_witness :
    (postReview ⟨[], [], [], 0, 0, 0, 0⟩
        ⟨.missing, none, none, none, none, none⟩ .noContent).1.status = 400 ∧
    (postReview ⟨[], [], [], 0, 0, 0, 0⟩
        ⟨.array [⟨"a.ts", "x"⟩], some "review", none, none, none, none⟩
        (.parsed ⟨[], [], [], [], []⟩)).1.analysisCalled = true := by
  refine ⟨?_, ?_⟩
  · exact ((reviewRequestValidation ⟨[], [], [], 0, 0, 0, 0⟩
      ⟨.missing, none, none, none, none, none⟩ .noContent .missing).1 rfl).1
  · exact (reviewRequestValidation ⟨[], [], [], 0, 0, 0, 0⟩
      ⟨.array [⟨"a.ts", "x"⟩], some "review", none, none, none, none⟩
      (.parsed ⟨[], [], [], [], []⟩) .missing).2.2.2
      [⟨"a.ts", "x"⟩] "review" rfl (by decide) rfl (by decide)

/-- Whether the completion call or the handling of its response failed. -/
def apiFailed : ApiOutcome → Bool
  | .parsed _ => false
  | _ => true

/-- Prefixing the fixed text keeps the error message non-empty. -/
theorem failed_msg_ne_empty (u : String) :
    ("Failed to analyze code: " ++ u) ≠ "" := by
  intro h
  have h2 := congrArg String.data h
  rw [String.data_append] at h2
  have h0 : ("" : String).data = [] := rfl
  rw [h0] at h2
  exact absurd (List.append_eq_nil.mp h2).1 (by decide)

/-- C6: every failure of the completion call or of response handling makes
`analyzeCode` fail with `"Failed to analyze code: "` plus the underlying
message, and the handler then answers exactly 500 with that message in the
JSON body, leaving the database unchanged. -/
theorem analyzeFailurePropagates (db : DbState) (body : ReviewRequestBody)
    (api : ApiOutcome)
    (hv : filesFieldInvalid body.files = false)
    (hn : nameFalsy body.name = false)
    (hf : apiFailed api = true) :
    analyzeCode api =
      .error ("Failed to analyze code: " ++ underlyingMessage api) ∧
    (postReview db body api).1.status = 500 ∧
    (postReview db body api).1.message =
      some ("Failed to analyze code: " ++ underlyingMessage api) ∧
    (postReview db body api).2 = db := by
  cases api with
  | parsed r => simp [apiFailed] at hf
  | apiError m =>
    exact ⟨rfl, by
      simp [postReview, hv, hn, analyzeCode, underlyingMessage,
        failed_msg_ne_empty m]⟩
  | noContent =>
    exact ⟨rfl, by
      simp [postReview, hv, hn, analyzeCode, underlyingMessage,
        failed_msg_ne_empty "No response content received from OpenAI"]⟩
  | badJson m =>
    exact ⟨rfl, by
      simp [postReview, hv, hn, analyzeCode, underlyingMessage,
        failed_msg_ne_empty m]⟩

/-- C6 witness: a concrete failing call produces the 500 with the composed
message. -/
theorem analyzeFailurePropagates_witness :
    (postReview ⟨[], [], [], 0, 0, 0, 0⟩
        ⟨.array [⟨"a.ts", "x"⟩], some "review", none, none, none, none⟩
        (.apiError "boom")).1.status = 500 ∧
    (postReview ⟨[], [], [], 0, 0, 0, 0⟩
        ⟨.array [⟨"a.ts", "x"⟩], some "review", none, none, none, none⟩
        (.apiError "boom")).1.message =
      some "Failed to analyze code: boom" := by
  have h := analyzeFailurePropagates ⟨[], [], [], 0, 0, 0, 0⟩
    ⟨.array [⟨"a.ts", "x"⟩], some "review", none, none, none, none⟩
    (.apiError "boom") (by decide) (by decide) (by decide)
  exact ⟨h.2.1, h.2.2.1⟩

/-- C8: the handler only ever appends rows; with the save flag off or a
failed analysis the database is left entirely unchanged. -/
theorem dbInsertOnly (db : DbState) (body : ReviewRequestBody)
    (api : ApiOutcome) :
    (∃ newReviews newFiles newResults,
      (postReview db body api).2.reviews = db.reviews ++ newReviews ∧
      (postReview db body api).2.reviewFiles = db.reviewFiles ++ newFiles ∧
      (postReview db body api).2.reviewResults = db.reviewResults ++ newResults) ∧
    (body.save.getD false = false → (postReview db body api).2 = db) ∧
    (∀ msg, analyzeCode api = .error msg → (postReview db body api).2 = db) := by
  by_cases hv : filesFieldInvalid body.files = true
  · refine ⟨⟨[], [], [], by simp [postReview, hv]⟩, ?_, ?_⟩
    · intro _; simp [postReview, hv]
    · intro msg _; simp [postReview, hv]
  · simp only [Bool.not_eq_true] at hv
    by_cases hn : nameFalsy body.name = true
    · refine ⟨⟨[], [], [], by simp [postReview, hv, hn]⟩, ?_, ?_⟩
      · intro _; simp [postReview, hv, hn]
      · intro msg _; simp [postReview, hv, hn]
    · simp only [Bool.not_eq_true] at hn
      cases hres : analyzeCode api with
      | error msg =>
        refine ⟨⟨[], [], [], by simp [postReview, hv, hn, hres]⟩, ?_, ?_⟩
        · intro _; simp [postReview, hv, hn, hres]
        · intro msg' _; simp [postReview, hv, hn, hres]
      | ok r =>
        by_cases hs : body.save.getD false = true
        · have hpost : (postReview db body api).2 = saveReview db body r := by
            simp [postReview, hv, hn, hres, hs]
          refine ⟨?_, ?_, ?_⟩
          · rw [hpost]
            exact ⟨_, _, _, rfl, rfl, rfl⟩
          · intro h; rw [h] at hs; exact absurd hs (by decide)
          · intro msg h; exact Except.noConfusion h
        · simp only [Bool.not_eq_true] at hs
          refine ⟨⟨[], [], [], by simp [postReview, hv, hn, hres, hs]⟩, ?_, ?_⟩
          · intro _; simp [postReview, hv, hn, hres, hs]
          · intro msg _; simp [postReview, hv, hn, hres, hs]

/-- C8 witness: with the save flag off the database is unchanged. -/
theorem dbInsertOnly_witness :
    (postReview ⟨[], [], [], 0, 0, 0, 0⟩
        ⟨.array [⟨"a.ts", "x"⟩], some "review", none, none, none, some false⟩
        (.parsed ⟨[], [], [], [], []⟩)).2 = ⟨[], [], [], 0, 0, 0, 0⟩ := by
  exact (dbInsertOnly ⟨[], [], [], 0, 0, 0, 0⟩
    ⟨.array [⟨"a.ts", "x"⟩], some "review", none, none, none, some false⟩
    (.parsed ⟨[], [], [], [], []⟩)).2.1 rfl

/-- Mapping a function of the element only over an enumeration forgets the
indices. -/
theorem map_enumFrom_snd {α β : Type _} (f : α → β) :
    ∀ (n : Nat) (l : List α),
      (List.enumFrom n l).map (fun p => f p.2) = l.map f := by
  intro n l
  induction l generalizing n with
  | nil => rfl
  | cons x xs ih => simp [List.enumFrom, ih]

/-- C4: saving a review persists the submitted name, description, language
and mode, the files' paths and contents, and the returned result arrays,
and fetching the review by its id returns all of them unchanged. -/
theorem saveRoundTrip (db : DbState) (body : ReviewRequestBody)
    (api : ApiOutcome) (fs : List FileContent) (n : String)
    (r : CodeReviewResponse)
    (hfiles : body.files = .array fs) (hfs : fs ≠ [])
    (hname : body.name = some n) (hn : n ≠ "")
    (hsave : body.save = some true) (hapi : api = .parsed r)
    (hwf1 : ∀ rv ∈ db.reviews, rv.id ≠ db.nextReviewId)
    (hwf2 : ∀ f ∈ db.reviewFiles, f.reviewId ≠ db.nextReviewId)
    (hwf3 : ∀ res ∈ db.reviewResults, res.reviewId ≠ db.nextReviewId) :
    ∃ full,
      getReviewById (postReview db body api).2 db.nextReviewId = some full ∧
      full.review.name = n ∧
      full.review.description = body.description.getD "" ∧
      full.review.language = body.language.getD "javascript" ∧
      full.review.mode = body.mode.getD .general ∧
      full.files.map (fun f => (f.path, f.content)) =
        fs.map (fun f => (f.path, f.content)) ∧
      full.results.map (fun res =>
        (res.suggestions, res.improvements, res.security,
         res.dependencies, res.architecture)) =
        [(r.suggestions, r.improvements, r.security,
          r.dependencies, r.architecture)] := by
  subst hapi
  have hf : filesFieldInvalid body.files = false := by
    rw [hfiles]
    simpa [filesFieldInvalid, List.length_eq_zero]
  have hnm : nameFalsy body.name = false := by
    rw [hname]
    simpa [nameFalsy]
  have hpost : (postReview db body (.parsed r)).2 = saveReview db body r := by
    simp [postReview, hf, hnm, analyzeCode, hsave]
  rw [hpost]
  have hnone : db.reviews.find? (fun rv => rv.id = db.nextReviewId) = none := by
    rw [List.find?_eq_none]
    intro x hx
    simpa using hwf1 x hx
  have hfilt1 : db.reviewFiles.filter
      (fun f => f.reviewId = db.nextReviewId) = [] := by
    rw [List.filter_eq_nil_iff]
    intro a ha
    simpa using hwf2 a ha
  have hfilt2 : db.reviewResults.filter
      (fun res => res.reviewId = db.nextReviewId) = [] := by
    rw [List.filter_eq_nil_iff]
    intro a ha
    simpa using hwf3 a ha
  refine ⟨attachRelations (saveReview db body r)
    { id := db.nextReviewId, name := body.name.getD "",
      description := body.description.getD "",
      language := body.language.getD "javascript",
      mode := body.mode.getD .general, createdAt := db.now },
    ?_, ?_, ?_, ?_, ?_, ?_, ?_⟩
  · show (((db.reviews ++
        [({ id := db.nextReviewId, name := body.name.getD "",
            description := body.description.getD "",
            language := body.language.getD "javascript",
            mode := body.mode.getD .general,
            createdAt := db.now } : ReviewRow)]).find?
          (fun rv => rv.id = db.nextReviewId)).map
        (attachRelations (saveReview db body r))) = _
    rw [List.find?_append, hnone, Option.none_or,
      List.find?_cons_of_pos _ (by simp)]
    rfl
  · show body.name.getD "" = n
    rw [hname]
    rfl
  · rfl
  · rfl
  · rfl
  · show ((db.reviewFiles ++ (bodyFiles body.files).enum.map
        (fun p => ({ id := db.nextFileId + p.1
                     reviewId := db.nextReviewId
                     path := p.2.path
                     content := p.2.content
                     createdAt := db.now } : ReviewFileRow))).filter
        (fun f => f.reviewId = db.nextReviewId)).map
          (fun f => (f.path, f.content)) = fs.map (fun f => (f.path, f.content))
    rw [List.filter_append, hfilt1, List.nil_append]
    rw [List.filter_eq_self.mpr]
    · rw [List.map_map, hfiles]
      exact map_enumFrom_snd (fun f => (f.path, f.content)) 0 fs
    · intro a ha
      obtain ⟨p, hp, rfl⟩ := List.mem_map.mp ha
      simp
  · show ((db.reviewResults ++
        [({ id := db.nextResultId
            reviewId := db.nextReviewId
            suggestions := r.suggestions
            improvements := r.improvements
            security := r.security
            dependencies := r.dependencies
            architecture := r.architecture
            createdAt := db.now } : ReviewResultRow)]).filter
        (fun res => res.reviewId = db.nextReviewId)).map
          (fun res => (res.suggestions, res.improvements, res.security,
            res.dependencies, res.architecture)) =
      [(r.suggestions, r.improvements, r.security,
        r.dependencies, r.architecture)]
    rw [List.filter_append, hfilt2, List.nil_append]
    simp

/-- C4 witness: a concrete save on the empty database round-trips. -/
theorem saveRoundTrip_witness :
    ∃ full,
      getReviewById
        (postReview ⟨[], [], [], 0, 0, 0, 7⟩
          ⟨.array [⟨"a.ts", "body"⟩], some "myreview", some "desc",
            some .security, some "typescript", some true⟩
          (.parsed ⟨["s1"], ["i1"], ["sec1"], ["d1"], ["ar1"]⟩)).2 0 =
        some full ∧
      full.review.name = "myreview" ∧
      full.review.description = (some "desc").getD "" ∧
      full.review.language = (some "typescript").getD "javascript" ∧
      full.review.mode = (some ReviewMode.security).getD .general ∧
      full.files.map (fun f => (f.path, f.content)) =
        [FileContent.mk "a.ts" "body"].map (fun f => (f.path, f.content)) ∧
      full.results.map (fun res =>
        (res.suggestions, res.improvements, res.security,
         res.dependencies, res.architecture)) =
        [(["s1"], ["i1"], ["sec1"], ["d1"], ["ar1"])] := by
  exact saveRoundTrip ⟨[], [], [], 0, 0, 0, 7⟩
    ⟨.array [⟨"a.ts", "body"⟩], some "myreview", some "desc",
      some .security, some "typescript", some true⟩
    (.parsed ⟨["s1"], ["i1"], ["sec1"], ["d1"], ["ar1"]⟩)
    [⟨"a.ts", "body"⟩] "myreview" ⟨["s1"], ["i1"], ["sec1"], ["d1"], ["ar1"]⟩
    rfl (by decide) rfl (by decide) rfl rfl
    (by intro rv h; simp at h) (by intro f h; simp at h)
    (by intro res h; simp at h)

/-- Inserting into the descending order is a permutation of consing. -/
theorem perm_insertByCreatedDesc (r : ReviewRow) (l : List ReviewRow) :
    (insertByCreatedDesc r l).Perm (r :: l) := by
  induction l with
  | nil => rfl
  | cons y ys ih =>
    simp only [insertByCreatedDesc]
    split
    · exact List.Perm.refl _
    · exact (ih.cons y).trans (List.Perm.swap r y ys)

/-- Inserting into a descending-sorted list keeps it sorted. -/
theorem sorted_insertByCreatedDesc (r : ReviewRow) (l : List ReviewRow)
    (h : List.Sorted (fun a b => b.createdAt ≤ a.createdAt) l) :
    List.Sorted (fun a b => b.createdAt ≤ a.createdAt)
      (insertByCreatedDesc r l) := by
  induction l with
  | nil => simp [insertByCreatedDesc]
  | cons y ys ih =>
    simp only [insertByCreatedDesc]
    split
    · rename_i hle
      rw [List.sorted_cons]
      refine ⟨?_, h⟩
      intro b hb
      cases hb with
      | head => exact hle
      | tail _ hb =>
        exact le_trans ((List.sorted_cons.mp h).1 b hb) hle
    · rename_i hgt
      have hy := (List.sorted_cons.mp h).1
      have hys := (List.sorted_cons.mp h).2
      rw [List.sorted_cons]
      refine ⟨?_, ih hys⟩
      intro b hb
      rw [(perm_insertByCreatedDesc r ys).mem_iff] at hb
      cases hb with
      | head => exact le_of_lt (Nat.lt_of_not_le hgt)
      | tail _ hb => exact hy b hb

/-- The newest-first sort is sorted. -/
theorem sorted_sortByCreatedDesc (l : List ReviewRow) :
    List.Sorted (fun a b => b.createdAt ≤ a.createdAt) (sortByCreatedDesc l) := by
  induction l with
  | nil => simp [sortByCreatedDesc]
  | cons x xs ih => exact sorted_insertByCreatedDesc x _ ih

/-- The newest-first sort is a permutation of the table. -/
theorem perm_sortByCreatedDesc (l : List ReviewRow) :
    (sortByCreatedDesc l).Perm l := by
  induction l with
  | nil => rfl
  | cons x xs ih =>
    exact (perm_insertByCreatedDesc x _).trans (ih.cons x)

/-- C9: `GET /api/reviews` returns exactly the stored reviews, newest
first, each with its files and results attached. -/
theorem getReviews_sorted (db : DbState) :
    List.Sorted (fun a b => b.createdAt ≤ a.createdAt)
      ((getReviews db).map (fun x => x.review)) ∧
    ((getReviews db).map (fun x => x.review)).Perm db.reviews ∧
    ∀ x ∈ getReviews db,
      x.files = db.reviewFiles.filter (fun f => f.reviewId = x.review.id) ∧
      x.results =
        db.reviewResults.filter (fun res => res.reviewId = x.review.id) := by
  have hmap : (getReviews db).map (fun x => x.review) =
      sortByCreatedDesc db.reviews := by
    unfold getReviews
    rw [List.map_map]
    have hcomp : ((fun x : ReviewWithRelations => x.review) ∘
        attachRelations db) = id := rfl
    rw [hcomp, List.map_id]
  refine ⟨?_, ?_, ?_⟩
  · rw [hmap]
    exact sorted_sortByCreatedDesc _
  · rw [hmap]
    exact perm_sortByCreatedDesc _
  · intro x hx
    unfold getReviews at hx
    obtain ⟨r0, hr0, rfl⟩ := List.mem_map.mp hx
    exact ⟨rfl, rfl⟩

/-- C9 witness: on a concrete two-review table the listing is newest first
with the relations attached. -/
theorem getReviews_sorted_witness :
    (ReviewWithRelations.mk ⟨2, "b", "", "javascript", .general, 20⟩
        [⟨5, 2, "p", "c", 20⟩] []).files =
      (DbState.mk [⟨1, "a", "", "javascript", .general, 10⟩,
          ⟨2, "b", "", "javascript", .general, 20⟩]
        [⟨5, 2, "p", "c", 20⟩] [] 3 6 1 30).reviewFiles.filter
        (fun f => f.reviewId =
          (ReviewWithRelations.mk ⟨2, "b", "", "javascript", .general, 20⟩
            [⟨5, 2, "p", "c", 20⟩] []).review.id) ∧
    (ReviewWithRelations.mk ⟨2, "b", "", "javascript", .general, 20⟩
        [⟨5, 2, "p", "c", 20⟩] []).results =
      (DbState.mk [⟨1, "a", "", "javascript", .general, 10⟩,
          ⟨2, "b", "", "javascript", .general, 20⟩]
        [⟨5, 2, "p", "c", 20⟩] [] 3 6 1 30).reviewResults.filter
        (fun res => res.reviewId =
          (ReviewWithRelations.mk ⟨2, "b", "", "javascript", .general, 20⟩
            [⟨5, 2, "p", "c", 20⟩] []).review.id) := by
  exact (getReviews_sorted
    (DbState.mk [⟨1, "a", "", "javascript", .general, 10⟩,
        ⟨2, "b", "", "javascript", .general, 20⟩]
      [⟨5, 2, "p", "c", 20⟩] [] 3 6 1 30)).2.2
    (ReviewWithRelations.mk ⟨2, "b", "", "javascript", .general, 20⟩
      [⟨5, 2, "p", "c", 20⟩] []) (by decide)

/-- Every entry of an upsert is an old entry or the new pair. -/
theorem mem_upsert {l : List (String × String)} {p c : String} :
    ∀ q ∈ upsert l p c, q ∈ l ∨ q = (p, c) := by
  induction l with
  | nil =>
    intro q hq
    simp only [upsert, List.mem_singleton] at hq
    exact Or.inr hq
  | cons x xs ih =>
    obtain ⟨q0, d0⟩ := x
    intro q hq
    simp only [upsert] at hq
    split at hq
    · rename_i heq
      cases hq with
      | head => exact Or.inr (by rw [heq])
      | tail _ h => exact Or.inl (List.mem_cons_of_mem _ h)
    · cases hq with
      | head => exact Or.inl (List.mem_cons_self _ _)
      | tail _ h =>
        cases ih q h with
        | inl h2 => exact Or.inl (List.mem_cons_of_mem _ h2)
        | inr h2 => exact Or.inr h2

/-- The keys of an upsert are the old keys or the new key. -/
theorem keys_mem_upsert {l : List (String × String)} {p c : String} :
    ∀ k ∈ (upsert l p c).map Prod.fst, k ∈ l.map Prod.fst ∨ k = p := by
  intro k hk
  obtain ⟨q, hq, rfl⟩ := List.mem_map.mp hk
  cases mem_upsert q hq with
  | inl h => exact Or.inl (List.mem_map_of_mem _ h)
  | inr h => exact Or.inr (by rw [h])

/-- All old keys survive an upsert. -/
theorem keys_sub_upsert (l : List (String × String)) (p c : String) :
    ∀ k ∈ l.map Prod.fst, k ∈ (upsert l p c).map Prod.fst := by
  induction l with
  | nil => intro k hk; cases hk
  | cons x xs ih =>
    obtain ⟨q0, d0⟩ := x
    intro k hk
    rw [List.map_cons] at hk
    simp only [upsert]
    split
    · rw [List.map_cons]
      exact hk
    · rw [List.map_cons]
      rcases List.mem_cons.mp hk with h | h
      · exact List.mem_cons.mpr (Or.inl h)
      · exact List.mem_cons.mpr (Or.inr (ih k h))

/-- The new key is present after an upsert. -/
theorem self_mem_upsert (l : List (String × String)) (p c : String) :
    p ∈ (upsert l p c).map Prod.fst := by
  induction l with
  | nil => simp [upsert]
  | cons x xs ih =>
    obtain ⟨q0, d0⟩ := x
    simp only [upsert]
    split
    · rename_i heq
      rw [List.map_cons]
      exact List.mem_cons.mpr (Or.inl heq.symm)
    · rw [List.map_cons]
      exact List.mem_cons.mpr (Or.inr ih)

/-- An upsert keeps the keys duplicate-free. -/
theorem nodup_keys_upsert (l : List (String × String)) (p c : String)
    (h : (l.map Prod.fst).Nodup) : ((upsert l p c).map Prod.fst).Nodup := by
  induction l with
  | nil => simp [upsert]
  | cons x xs ih =>
    obtain ⟨q0, d0⟩ := x
    simp only [upsert]
    split
    · rename_i heq
      simpa using h
    · rename_i hne
      rw [List.map_cons, List.nodup_cons]
      rw [List.map_cons, List.nodup_cons] at h
      refine ⟨?_, ih h.2⟩
      intro hc
      cases keys_mem_upsert _ hc with
      | inl h2 => exact h.1 h2
      | inr h2 => exact hne h2

/-- Looking up the upserted key yields the new content. -/
theorem lookup_upsert (l : List (String × String)) (p c : String) :
    (upsert l p c).lookup p = some c := by
  induction l with
  | nil => simp [upsert, List.lookup]
  | cons x xs ih =>
    obtain ⟨q0, d0⟩ := x
    simp only [upsert]
    split
    · rename_i heq
      simp [List.lookup, heq]
    · rename_i hne
      have : (p == q0) = false := by
        rw [beq_eq_false_iff_ne]
        intro h
        exact hne h.symm
      simp [List.lookup, this, ih]

/-- An invalid path leaves the state untouched. -/
theorem processFile_invalid (st : IngestState) (f : UploadFile)
    (h : isValidFile f.path = false) : processFile st f = st := by
  simp [processFile, h]

/-- An over-5MB file is never recorded and adds nothing to the total. -/
theorem processFile_oversize (st : IngestState) (f : UploadFile)
    (h : f.size > MAX_FILE_SIZE) :
    (processFile st f).newFiles = st.newFiles ∧
    (processFile st f).newTotalSize = st.newTotalSize := by
  unfold processFile
  by_cases hv : isValidFile f.path = false
  · simp [hv]
  · simp only [Bool.not_eq_false] at hv
    simp [hv, h]

/-- An accepted file is upserted and its size added. -/
theorem processFile_accept (st : IngestState) (f : UploadFile)
    (hv : isValidFile f.path = true) (hs : f.size ≤ MAX_FILE_SIZE)
    (ht : st.newTotalSize + f.size ≤ MAX_TOTAL_SIZE) :
    (processFile st f).newFiles = upsert st.newFiles f.path f.content ∧
    (processFile st f).newTotalSize = st.newTotalSize + f.size := by
  unfold processFile
  rw [if_neg (by simp [hv]), if_neg (by simpa using Nat.not_lt.mpr hs),
    if_neg (by simpa using Nat.not_lt.mpr ht)]
  exact ⟨rfl, rfl⟩

/-- One step never grows the total by more than the file's size. -/
theorem processFile_total_le (st : IngestState) (f : UploadFile) :
    (processFile st f).newTotalSize ≤ st.newTotalSize + f.size := by
  unfold processFile
  split
  · exact Nat.le_add_right _ _
  · split
    · exact Nat.le_add_right _ _
    · split
      · exact Nat.le_add_right _ _
      · exact Nat.le_refl _

/-- Induction principle for one `handleFiles` run. -/
theorem foldl_processFile_inv (P : IngestState → Prop)
    (hstep : ∀ st f, P st → P (processFile st f)) :
    ∀ (files : List UploadFile) (st : IngestState),
      P st → P (files.foldl processFile st) := by
  intro files
  induction files with
  | nil => intro st h; exact h
  | cons f fs ih => intro st h; exact ih _ (hstep st f h)

/-- Step preservation: all recorded paths pass `isValidFile`. -/
theorem processFile_entries_valid (st : IngestState) (f : UploadFile)
    (h : ∀ q ∈ st.newFiles, isValidFile q.1 = true) :
    ∀ q ∈ (processFile st f).newFiles, isValidFile q.1 = true := by
  unfold processFile
  split
  · exact h
  · rename_i hv
    have hv2 : isValidFile f.path = true := by simpa using hv
    split
    · exact h
    · split
      · exact h
      · intro q hq
        cases mem_upsert q hq with
        | inl h2 => exact h q h2
        | inr h2 => rw [h2]; exact hv2

/-- Step preservation: the running total stays within the 50MB cap. -/
theorem processFile_total_cap (st : IngestState) (f : UploadFile)
    (h : st.newTotalSize ≤ MAX_TOTAL_SIZE) :
    (processFile st f).newTotalSize ≤ MAX_TOTAL_SIZE := by
  unfold processFile
  split
  · exact h
  · split
    · exact h
    · split
      · exact h
      · rename_i hcap
        exact Nat.not_lt.mp hcap

/-- Step preservation: the recorded paths stay duplicate-free. -/
theorem processFile_nodup (st : IngestState) (f : UploadFile)
    (h : (st.newFiles.map Prod.fst).Nodup) :
    ((processFile st f).newFiles.map Prod.fst).Nodup := by
  unfold processFile
  split
  · exact h
  · split
    · exact h
    · split
      · exact h
      · exact nodup_keys_upsert _ _ _ h

/-- Step preservation: recorded paths are never dropped. -/
theorem processFile_keys_mono (st : IngestState) (f : UploadFile) :
    ∀ k ∈ st.newFiles.map Prod.fst,
      k ∈ (processFile st f).newFiles.map Prod.fst := by
  unfold processFile
  split
  · exact fun k hk => hk
  · split
    · exact fun k hk => hk
    · split
      · exact fun k hk => hk
      · exact keys_sub_upsert _ _ _

/-- Completeness: when the inputs fit in the budget, every valid small
file's path is recorded. -/
theorem handleFiles_complete_aux :
    ∀ (files : List UploadFile) (st : IngestState),
      st.newTotalSize + (files.map (fun g => g.size)).sum ≤ MAX_TOTAL_SIZE →
      ∀ g ∈ files, isValidFile g.path = true → g.size ≤ MAX_FILE_SIZE →
        g.path ∈ (files.foldl processFile st).newFiles.map Prod.fst := by
  intro files
  induction files with
  | nil => intro st _ g hg; cases hg
  | cons f fs ih =>
    intro st hsum g hg hv hs
    rw [List.foldl_cons]
    simp only [List.map_cons, List.sum_cons] at hsum
    cases hg with
    | head =>
      have hfit : st.newTotalSize + f.size ≤ MAX_TOTAL_SIZE := by omega
      have hacc := processFile_accept st f hv hs hfit
      have hbase : f.path ∈ (processFile st f).newFiles.map Prod.fst := by
        rw [hacc.1]
        exact self_mem_upsert _ _ _
      exact foldl_processFile_inv
        (fun s => f.path ∈ s.newFiles.map Prod.fst)
        (fun s g0 hp => processFile_keys_mono s g0 _ hp) fs _ hbase
    | tail _ hg2 =>
      apply ih (processFile st f) ?_ g hg2 hv hs
      have hle := processFile_total_le st f
      omega

mutual

/-- A `processFile`-invariant is preserved by one entry of the traversal. -/
theorem processEntry_inv (P : IngestState → Prop)
    (hstep : ∀ st f, P st → P (processFile st f)) (allow : Bool) :
    ∀ (path : String) (e : Entry) (st : IngestState),
      P st → P (processEntry allow path st e)
  | _, .file nm sz ct, st, h => hstep st _ h
  | path, .dir nm children, st, h => by
    show P (if allow then
      if EXCLUDED_DIRS.contains nm then st
      else processEntries allow (joinPath path nm) st children
      else st)
    split
    · split
      · exact h
      · exact processEntries_inv P hstep allow (joinPath path nm) children st h
    · exact h

/-- A `processFile`-invariant is preserved by a directory's entries. -/
theorem processEntries_inv (P : IngestState → Prop)
    (hstep : ∀ st f, P st → P (processFile st f)) (allow : Bool) :
    ∀ (path : String) (es : List Entry) (st : IngestState),
      P st → P (processEntries allow path st es)
  | _, [], _, h => h
  | path, e :: es, st, h =>
    processEntries_inv P hstep allow path es _
      (processEntry_inv P hstep allow path e st h)

end

/-- `isValidFile` accepts exactly the paths that avoid every excluded
directory and carry an accepted extension. -/
theorem isValidFile_spec (p : String) :
    isValidFile p = true ↔
      ((∀ d ∈ EXCLUDED_DIRS, includesSubstr p ("/" ++ d ++ "/") = false) ∧
       extOf p ≠ "" ∧ ACCEPTED_EXTENSIONS.contains (extOf p) = true) := by
  unfold isValidFile
  by_cases hex :
      EXCLUDED_DIRS.any (fun dir => includesSubstr p ("/" ++ dir ++ "/")) = true
  · rw [if_pos hex]
    constructor
    · intro h
      exact absurd h (by simp)
    · rintro ⟨hall, -⟩
      obtain ⟨d, hd, hinc⟩ := List.any_eq_true.mp hex
      rw [hall d hd] at hinc
      cases hinc
  · rw [if_neg hex]
    have hall : ∀ d ∈ EXCLUDED_DIRS, includesSubstr p ("/" ++ d ++ "/") = false := by
      intro d hd
      by_contra hc
      exact hex (List.any_eq_true.mpr ⟨d, hd, by simpa using hc⟩)
    show (if extOf p = "" then false
      else ACCEPTED_EXTENSIONS.contains (extOf p)) = true ↔ _
    by_cases he : extOf p = ""
    · rw [if_pos he]
      constructor
      · intro h
        exact absurd h (by simp)
      · rintro ⟨-, hne, -⟩
        exact absurd he hne
    · rw [if_neg he]
      constructor
      · intro h
        exact ⟨hall, he, h⟩
      · rintro ⟨-, -, hc⟩
        exact hc

/-- C7: `handleFiles` records only paths outside the excluded directories
with an accepted extension, rejects over-5MB files, keeps the accepted
total within 50MB, skips excluded directories during traversal, keeps at
most one entry per path with a later same-path file replacing the earlier
one, and (when the inputs fit in the budget) accepts every valid small
file. -/
theorem handleFiles_spec (files : List UploadFile) (st : IngestState)
    (f : UploadFile) (allow : Bool) (path dname : String)
    (children : List Entry) (entries : List Entry) :
    (∀ q ∈ (handleFiles files).newFiles,
      (∀ d ∈ EXCLUDED_DIRS, includesSubstr q.1 ("/" ++ d ++ "/") = false) ∧
      extOf q.1 ≠ "" ∧ ACCEPTED_EXTENSIONS.contains (extOf q.1) = true) ∧
    ((handleFiles files).newFiles.map Prod.fst).Nodup ∧
    (handleFiles files).newTotalSize ≤ MAX_TOTAL_SIZE ∧
    (isValidFile f.path = false → processFile st f = st) ∧
    (f.size > MAX_FILE_SIZE →
      (processFile st f).newFiles = st.newFiles ∧
      (processFile st f).newTotalSize = st.newTotalSize) ∧
    (isValidFile f.path = true → f.size ≤ MAX_FILE_SIZE →
      st.newTotalSize + f.size ≤ MAX_TOTAL_SIZE →
      (processFile st f).newFiles = upsert st.newFiles f.path f.content ∧
      (processFile st f).newFiles.lookup f.path = some f.content) ∧
    (EXCLUDED_DIRS.contains dname = true →
      processEntry allow path st (.dir dname children) = st) ∧
    ((files.map (fun g => g.size)).sum ≤ MAX_TOTAL_SIZE →
      ∀ g ∈ files, isValidFile g.path = true → g.size ≤ MAX_FILE_SIZE →
        g.path ∈ (handleFiles files).newFiles.map Prod.fst) ∧
    (∀ q ∈ (handleFilesEntries allow entries).newFiles,
      isValidFile q.1 = true) ∧
    (handleFilesEntries allow entries).newTotalSize ≤ MAX_TOTAL_SIZE ∧
    ((handleFilesEntries allow entries).newFiles.map Prod.fst).Nodup := by
  refine ⟨?_, ?_, ?_, ?_, ?_, ?_, ?_, ?_, ?_, ?_, ?_⟩
  · intro q hq
    have hvalid := foldl_processFile_inv
      (fun s => ∀ q ∈ s.newFiles, isValidFile q.1 = true)
      processFile_entries_valid files initIngest (by intro q hq; cases hq)
    exact (isValidFile_spec q.1).mp (hvalid q hq)
  · exact foldl_processFile_inv
      (fun s => (s.newFiles.map Prod.fst).Nodup)
      processFile_nodup files initIngest (by simp [initIngest])
  · exact foldl_processFile_inv
      (fun s => s.newTotalSize ≤ MAX_TOTAL_SIZE)
      processFile_total_cap files initIngest (by simp [initIngest])
  · exact processFile_invalid st f
  · exact processFile_oversize st f
  · intro hv hs ht
    have hacc := processFile_accept st f hv hs ht
    refine ⟨hacc.1, ?_⟩
    rw [hacc.1]
    exact lookup_upsert _ _ _
  · intro hd
    show (if allow then
      if EXCLUDED_DIRS.contains dname then st
      else processEntries allow (joinPath path dname) st children
      else st) = st
    simp only [hd]
    split
    · rfl
    · rfl
  · intro hsum
    apply handleFiles_complete_aux files initIngest
    simpa [initIngest] using hsum
  · exact processEntries_inv
      (fun s => ∀ q ∈ s.newFiles, isValidFile q.1 = true)
      processFile_entries_valid allow "" entries initIngest
      (by intro q hq; cases hq)
  · exact processEntries_inv
      (fun s => s.newTotalSize ≤ MAX_TOTAL_SIZE)
      processFile_total_cap allow "" entries initIngest (by simp [initIngest])
  · exact processEntries_inv
      (fun s => (s.newFiles.map Prod.fst).Nodup)
      processFile_nodup allow "" entries initIngest (by simp [initIngest])

/-- C7 witness: an oversized file is rejected, a small valid file is
recorded with its content, and an excluded directory is skipped. -/
theorem handleFiles_spec_witness :
    (processFile initIngest ⟨"a.ts", MAX_FILE_SIZE + 1, "x"⟩).newFiles =
      initIngest.newFiles ∧
    (processFile initIngest ⟨"b.ts", 3, "y"⟩).newFiles.lookup "b.ts" =
      some "y" ∧
    processEntry true "" initIngest
      (.dir "node_modules" [.file "c.ts" 1 "z"]) = initIngest := by
  refine ⟨?_, ?_, ?_⟩
  · exact ((handleFiles_spec [] initIngest ⟨"a.ts", MAX_FILE_SIZE + 1, "x"⟩
      true "" "" [] []).2.2.2.2.1 (by decide)).1
  · exact ((handleFiles_spec [] initIngest ⟨"b.ts", 3, "y"⟩
      true "" "" [] []).2.2.2.2.2.1 (by decide) (by decide) (by decide)).2
  · exact (handleFiles_spec [] initIngest ⟨"b.ts", 3, "y"⟩
      true "" "node_modules" [.file "c.ts" 1 "z"] []).2.2.2.2.2.2.1
      (by decide)

end AICodeReview
